import Mathlib

/-!
Shallow embedding of the typing-game core of this repository
(src/game.rs, src/word.rs, src/main.rs, src/color_scheme.rs) and proofs
of the stated properties.

Modelling conventions:
* `f32` coordinates, velocities and time deltas are modelled as `ℚ`
  (exact arithmetic in place of floating point).
* The host's held-key snapshot (`pressed_keys`, a `HashSet<KeyCode>`)
  is modelled as a `List KeyCode` in the host's iteration order;
  membership is what the code queries.
* The random draws of `Game::new` (`shuffle`, `gen_range`) and the f32
  trigonometry are abstracted as explicit parameters: a shuffled word
  list, per-index angle/radius draws, and a trig oracle.
* The `keyframe` crate's `AnimationSequence` is external to the
  repository; it is modelled from the spec: a time-sorted list of
  keyframes plus an accumulated clock, `advance_by` adds the frame's
  time delta, and the sequence is finished once the clock has reached
  the final keyframe's time offset.
-/

namespace AnimatedMemory

/-! The core Rat operations are irreducible by default, which blocks
kernel evaluation of concrete game traces; restore semireducibility so
that `decide` can evaluate the model on concrete inputs. -/
attribute [local semireducible] Rat.add Rat.mul Rat.ofScientific Rat.inv

set_option maxRecDepth 8000

/-- Decidable equality for `Except`, used to evaluate the model's
fallible update functions on concrete inputs. -/
instance {e a : Type} [DecidableEq e] [DecidableEq a] :
    DecidableEq (Except e a) := fun x y =>
  match x, y with
  | Except.error u, Except.error v =>
    if h : u = v then isTrue (by rw [h])
    else isFalse (fun hc => by cases hc; exact h rfl)
  | Except.ok u, Except.ok v =>
    if h : u = v then isTrue (by rw [h])
    else isFalse (fun hc => by cases hc; exact h rfl)
  | Except.error u, Except.ok v => isFalse (fun hc => Except.noConfusion hc)
  | Except.ok u, Except.error v => isFalse (fun hc => Except.noConfusion hc)

/-- Key codes of the host input layer (`good_web_game` `KeyCode`).
Only the 36 codes produced by `ch_to_keycode` take part in the core
logic; they are the ones modelled. -/
inductive KeyCode where
  | Key0 | Key1 | Key2 | Key3 | Key4 | Key5 | Key6 | Key7 | Key8 | Key9
  | A | B | C | D | E | F | G | H | I | J | K | L | M
  | N | O | P | Q | R | S | T | U | V | W | X | Y | Z
deriving DecidableEq, Repr

/-- Palette names from `src/color_scheme.rs` (`ColorPalette`), together
with `Red`, which is referenced by `src/word.rs` `Word::new` although no
palette table under src/ defines an RGBA entry for it.  Death-animation
keyframes are modelled at palette-name granularity (the source stores
the palette color converted to an RGBA tween struct; no claim inspects
channel values, and `Red` has no channel values in src/). -/
inductive ColorPalette where
  | Bg | Bg1 | Bg2 | Fg | Fg0 | Fg4 | Blue | BrightYellow | Orange
  | TransparentBg | Red
deriving DecidableEq, Repr

/-- Easing functions used by the death animation (`keyframe::functions`). -/
inductive Easing where
  | Linear
  | EaseInOut
deriving DecidableEq, Repr

/-- One keyframe of an animation sequence: a color stop, its time
offset, and the easing function attached to it. -/
structure Keyframe where
  color : ColorPalette
  time : ℚ
  easing : Easing
deriving DecidableEq, Repr

/-- Modelled from the spec: the `keyframe` crate's `AnimationSequence`
(the Color Tween Engine of spec §4.1) — a keyframe timeline ordered by
time offset plus an accumulated elapsed-time clock. -/
structure AnimationSequence where
  keyframes : List Keyframe
  time : ℚ
deriving DecidableEq, Repr

/-- `AnimationSequence::new()`: an empty timeline with clock at 0. -/
def AnimationSequence.new : AnimationSequence := ⟨[], 0⟩

/-- Insert a keyframe keeping the timeline sorted by time offset
(the source inserts its four keyframes in increasing time order). -/
def insertKeyframe (k : Keyframe) : List Keyframe → List Keyframe
  | [] => [k]
  | k1 :: rest =>
    if k.time ≤ k1.time then k :: k1 :: rest else k1 :: insertKeyframe k rest

/-- `AnimationSequence::insert`. -/
def AnimationSequence.insert (a : AnimationSequence) (k : Keyframe) :
    AnimationSequence :=
  { a with keyframes := insertKeyframe k a.keyframes }

/-- Total duration of the timeline: the final keyframe's time offset. -/
def AnimationSequence.duration (a : AnimationSequence) : ℚ :=
  (a.keyframes.getLast?).elim 0 Keyframe.time

/-- Modelled from the spec: `advance_by` advances the clock by the
frame's elapsed-time delta. -/
def AnimationSequence.advanceBy (a : AnimationSequence) (delta : ℚ) :
    AnimationSequence :=
  { a with time := a.time + delta }

/-- `finished()`: the clock has reached the final keyframe's offset. -/
def AnimationSequence.finished (a : AnimationSequence) : Bool :=
  a.duration ≤ a.time

/-- Word lifecycle states (`WordState` in src/game.rs lines 298-304). -/
inductive WordState where
  | Active
  | Typed
  | Dead
deriving DecidableEq, Repr

/-- 2-D point (`Point2`), coordinates modelled as `ℚ`. -/
structure Point2 where
  x : ℚ
  y : ℚ
deriving DecidableEq, Repr

/-- 2-D vector (`Vector2`), coordinates modelled as `ℚ`. -/
structure Vector2 where
  x : ℚ
  y : ℚ
deriving DecidableEq, Repr

instance : HAdd Point2 Vector2 Point2 :=
  ⟨fun p v => ⟨p.x + v.x, p.y + v.y⟩⟩

theorem Point2.add_def (p : Point2) (v : Vector2) :
    p + v = ⟨p.x + v.x, p.y + v.y⟩ := rfl

/-- `ch_to_keycode` (src/game.rs lines 433-473; src/word.rs and
src/main.rs contain the identical function). -/
def chToKeycode (ch : Char) : Option KeyCode :=
  match ch with
  | '0' => some KeyCode.Key0
  | '1' => some KeyCode.Key1
  | '2' => some KeyCode.Key2
  | '3' => some KeyCode.Key3
  | '4' => some KeyCode.Key4
  | '5' => some KeyCode.Key5
  | '6' => some KeyCode.Key6
  | '7' => some KeyCode.Key7
  | '8' => some KeyCode.Key8
  | '9' => some KeyCode.Key9
  | 'a' => some KeyCode.A
  | 'b' => some KeyCode.B
  | 'c' => some KeyCode.C
  | 'd' => some KeyCode.D
  | 'e' => some KeyCode.E
  | 'f' => some KeyCode.F
  | 'g' => some KeyCode.G
  | 'h' => some KeyCode.H
  | 'i' => some KeyCode.I
  | 'j' => some KeyCode.J
  | 'k' => some KeyCode.K
  | 'l' => some KeyCode.L
  | 'm' => some KeyCode.M
  | 'n' => some KeyCode.N
  | 'o' => some KeyCode.O
  | 'p' => some KeyCode.P
  | 'q' => some KeyCode.Q
  | 'r' => some KeyCode.R
  | 's' => some KeyCode.S
  | 't' => some KeyCode.T
  | 'u' => some KeyCode.U
  | 'v' => some KeyCode.V
  | 'w' => some KeyCode.W
  | 'x' => some KeyCode.X
  | 'y' => some KeyCode.Y
  | 'z' => some KeyCode.Z
  | _ => none

/-- The `Word` entity (src/game.rs lines 306-314). -/
structure Word where
  word : List Char
  num_typed : Nat
  position : Point2
  velocity : Vector2
  color : ColorPalette
  state : WordState
  death_animation : AnimationSequence
deriving DecidableEq, Repr

/-- The death-animation total duration (`animation_duration = 1.0`). -/
def animationDuration : ℚ := 1

/-- The `death_animation` built by `Word::new` of src/game.rs lines
318-323 (identically src/main.rs): four keyframes inserted in
increasing time order — bright-yellow at 0, `Fg0` at 0.05, blue at
0.45 and background at the full 1.0 duration, the first two linear and
the last two eased in-out. -/
def gameDeathAnimation : AnimationSequence :=
  ((((AnimationSequence.new).insert
      ⟨ColorPalette.BrightYellow, 0, Easing.Linear⟩).insert
      ⟨ColorPalette.Fg0, animationDuration * 0.05, Easing.Linear⟩).insert
      ⟨ColorPalette.Blue, animationDuration * 0.45, Easing.EaseInOut⟩).insert
      ⟨ColorPalette.Bg, animationDuration, Easing.EaseInOut⟩

/-- The `death_animation` built by `Word::new` of src/word.rs lines
46-51: identical to `gameDeathAnimation` except that the first stop is
`ColorPalette::Red`. -/
def wordRsDeathAnimation : AnimationSequence :=
  ((((AnimationSequence.new).insert
      ⟨ColorPalette.Red, 0, Easing.Linear⟩).insert
      ⟨ColorPalette.Fg0, animationDuration * 0.05, Easing.Linear⟩).insert
      ⟨ColorPalette.Blue, animationDuration * 0.45, Easing.EaseInOut⟩).insert
      ⟨ColorPalette.Bg, animationDuration, Easing.EaseInOut⟩

/-- `Word::new` (src/game.rs lines 317-338): fresh word, nothing typed,
state `Active`, default foreground color, owning its death animation. -/
def Word.new (word : String) (position : Point2) (velocity : Vector2) :
    Word :=
  { word := word.toList
    num_typed := 0
    position := position
    velocity := velocity
    color := ColorPalette.Fg
    state := WordState.Active
    death_animation := gameDeathAnimation }

namespace WordRs

/-- `Word::new` of the variant module src/word.rs (lines 45-66): same
construction as the game.rs one except for the death animation's first
stop. -/
def new (word : String) (position : Point2) (velocity : Vector2) : Word :=
  { word := word.toList
    num_typed := 0
    position := position
    velocity := velocity
    color := ColorPalette.Fg
    state := WordState.Active
    death_animation := wordRsDeathAnimation }

end WordRs

/-- First statement of `Word::update` (src/game.rs line 341-343):
`if self.state == WordState::Typed && self.death_animation.finished()
\x7b self.state = WordState::Dead; \x7d`. -/
def Word.checkDead (w : Word) : Word :=
  if w.state = WordState.Typed ∧ w.death_animation.finished then
    { w with state := WordState.Dead }
  else w

/-- Second statement of `Word::update` (src/game.rs lines 345-347):
advance the death-animation clock by the frame delta while `Typed`. -/
def Word.tickAnimation (w : Word) (delta : ℚ) : Word :=
  if w.state = WordState.Typed then
    { w with death_animation := w.death_animation.advanceBy delta }
  else w

/-- Body of the `if let Some(next_ch) = self.word.get(self.num_typed)`
statement of `Word::update` (src/game.rs lines 349-363): if an untyped
character remains, look up its key code (fatal error when unmapped and
a key was delivered), increment `num_typed` on a match, and advance the
position by the velocity; otherwise flip `Active` to `Typed`. -/
def Word.processKey (w2 : Word) (key_pressed : Option KeyCode) :
    Except String Word :=
  match w2.word.get? w2.num_typed with
  | some next_ch =>
    match key_pressed with
    | some kp =>
      match chToKeycode next_ch with
      | none => Except.error ("unmapped character: " ++ next_ch.toString)
      | some key_code =>
        let w3 :=
          if kp = key_code then { w2 with num_typed := w2.num_typed + 1 }
          else w2
        Except.ok { w3 with position := w3.position + w3.velocity }
    | none => Except.ok { w2 with position := w2.position + w2.velocity }
  | none =>
    if w2.state = WordState.Active then
      Except.ok { w2 with state := WordState.Typed }
    else Except.ok w2

/-- `Word::update` (src/game.rs lines 340-366): the two state preamble
statements followed by the character-matching body. -/
def Word.update (w : Word) (delta : ℚ) (key_pressed : Option KeyCode) :
    Except String Word :=
  ((w.checkDead).tickAnimation delta).processKey key_pressed

/-- The player avatar (src/game.rs lines 404-415). -/
structure Player where
  position : Point2
  radius : ℚ
  precision : ℚ
deriving DecidableEq, Repr

/-- `Player::new`: fixed rendering precision 0.01. -/
def Player.new (position : Point2) (radius : ℚ) : Player :=
  { position := position, radius := radius, precision := 0.01 }

/-- The `Game` (src/game.rs lines 165-170): player, word collection,
reset-cooldown counter, and the previous frame's held-key snapshot. -/
structure Game where
  player : Player
  words : List Word
  reset_typed : Nat
  keys_pressed : List KeyCode
deriving DecidableEq, Repr

/-- The edge detector of `Game::update` (src/game.rs lines 244-254):
the first key of the current held-key snapshot that is absent from the
previous frame's snapshot, `none` when every held key was already held. -/
def newKeypress (prev : List KeyCode) : List KeyCode → Option KeyCode
  | [] => none
  | k :: rest => if prev.contains k then newKeypress prev rest else some k

/-- The cooldown branch of the word loop (src/game.rs lines 259-262):
an `Active` word's `num_typed` is forced back to 0; other words are
untouched. -/
def resetActive (w : Word) : Word :=
  if w.state = WordState.Active then { w with num_typed := 0 } else w

/-- The word loop of `Game::update` (src/game.rs lines 258-274).
While the cooldown is active each `Active` word is reset and no
per-word update runs.  Otherwise each word is updated in order; when a
word transitions `Active → Typed` the cooldown is set to 2 and the loop
breaks, leaving the remaining words untouched.  Returns the new word
list together with the cooldown value at loop exit. -/
def Game.updateWords (reset_typed : Nat) (delta : ℚ)
    (key : Option KeyCode) : List Word → Except String (List Word × Nat)
  | [] => Except.ok ([], reset_typed)
  | w :: rest =>
    if 0 < reset_typed then
      match Game.updateWords reset_typed delta key rest with
      | Except.ok (rest2, rt) => Except.ok (resetActive w :: rest2, rt)
      | Except.error e => Except.error e
    else
      match w.update delta key with
      | Except.error e => Except.error e
      | Except.ok w2 =>
        if w.state = WordState.Active ∧ w2.state = WordState.Typed then
          Except.ok (w2 :: rest, 2)
        else
          match Game.updateWords reset_typed delta key rest with
          | Except.ok (rest2, rt) => Except.ok (w2 :: rest2, rt)
          | Except.error e => Except.error e

/-- `Game::update` (src/game.rs lines 239-279): edge-detect the new
keypress against the stored snapshot, store the current snapshot, run
the word loop, and decrement the cooldown with saturating subtraction. -/
def Game.update (g : Game) (pressed : List KeyCode) (delta : ℚ) :
    Except String Game :=
  let key := newKeypress g.keys_pressed pressed
  match Game.updateWords g.reset_typed delta key g.words with
  | Except.error e => Except.error e
  | Except.ok (words2, rt) =>
    Except.ok { g with
      words := words2
      reset_typed := rt - 1
      keys_pressed := pressed }

/-- The decorative ring of `Game::new` (src/game.rs lines 183-197):
thirteen label/angle pairs at 0°, 15°, ..., 180°. -/
def ringData : List (String × ℚ) :=
  [("0", 0), ("15", 15), ("30", 30), ("45", 45), ("60", 60), ("75", 75),
   ("90", 90), ("105", 105), ("120", 120), ("135", 135), ("150", 150),
   ("165", 165), ("180", 180)]

/-- Oracle for the f32 trigonometry of `Game::new`: `cosDeg a` models
`((a - 180.0) * PI / 180.0).cos()` and `sinDeg a` the corresponding
sine, for an angle `a` in degrees. -/
structure TrigOracle where
  cosDeg : ℚ → ℚ
  sinDeg : ℚ → ℚ

/-- `WORD_LIST` (src/game.rs lines 475-647): the fixed 171-entry
vocabulary. -/
def WORD_LIST : List String :=
  ["and", "are", "ape", "ace", "act", "ask", "arm", "age", "ago", "air",
   "ate", "all", "but", "bye", "bad", "big", "bed", "bat", "boy", "bus",
   "bag", "box", "bit", "bee", "buy", "bun", "cub", "cat", "car", "cut",
   "cow", "cry", "cab", "can", "dad", "dab", "dam", "did", "dug", "den",
   "dot", "dip", "day", "ear", "eye", "eat", "end", "elf", "egg", "far",
   "fat", "few", "fan", "fun", "fit", "fin", "fox", "fix", "fly", "fry",
   "for", "got", "get", "god", "gel", "gas", "hat", "hit", "has", "had",
   "how", "her", "his", "hen", "ink", "ice", "ill", "jab", "jug", "jet",
   "jam", "jar", "job", "jog", "kit", "key", "lot", "lit", "let", "lay",
   "mat", "man", "mad", "mug", "mix", "map", "mum", "mud", "mom", "may",
   "met", "net", "new", "nap", "now", "nod", "net", "not", "nut", "oar",
   "one", "out", "owl", "old", "own", "odd", "our", "pet", "pat", "peg",
   "paw", "pup", "pit", "put", "pot", "pop", "pin", "rat", "rag", "rub",
   "row", "rug", "run", "rap", "ram", "sow", "see", "saw", "set", "sit",
   "sir", "sat", "sob", "tap", "tip", "top", "tug", "tow", "toe", "tan",
   "ten", "two", "use", "van", "vet", "was", "wet", "win", "won", "wig",
   "war", "why", "who", "way", "wow", "you", "yes", "yak", "yet", "zip",
   "zap"]

/-- The loop body of the decorative-ring loop of `Game::new`
(src/game.rs lines 197-204): place the label at the ring position and
give it zero velocity and the muted `Bg2` color.  `radius`, `cx`, `cy`
are the enclosing scope's `radius`, `center_x`, `center_y`. -/
def ringWord (tr : TrigOracle) (radius cx cy : ℚ) (la : String × ℚ) :
    Word :=
  let x := radius * tr.cosDeg la.2 + cx
  let y := radius * tr.sinDeg la.2 + cy * 2
  { Word.new la.1 ⟨x, y⟩ ⟨0, 0⟩ with color := ColorPalette.Bg2 }

/-- The loop body of the vocabulary loop of `Game::new` (src/game.rs
lines 210-226): random angle and extra radius for the shuffled index,
radial placement, and a velocity aimed at the player position scaled
by `1 / (500 + r / 2)` per axis. -/
def vocabWord (tr : TrigOracle) (angles radii : Nat → ℚ)
    (radius cx cy : ℚ) (pp : Point2) (iw : Nat × String) : Word :=
  let angle := angles iw.1
  let rand_r := radii iw.1
  let r := radius + (iw.1 : ℚ) * rand_r
  let x := r * tr.cosDeg angle + cx
  let y := r * tr.sinDeg angle + cy
  Word.new iw.2 ⟨x, y⟩
    ⟨(pp.x - x) / (500 + r / 2), (pp.y - y) / (500 + r / 2)⟩

/-- `Game::new` (src/game.rs lines 173-235).  The random shuffle of
`WORD_LIST` is abstracted as the `shuffled` parameter; the per-word
random draws `gen_range(0.0..=180.0)` and `gen_range(50.0..300.0)` as
the functions `angles` and `radii` of the shuffled index; the f32
trigonometry as the oracle `tr`.  Thirteen zero-velocity ring labels
colored `Bg2` are emitted first, then one word per vocabulary entry. -/
def Game.new (tr : TrigOracle) (angles radii : Nat → ℚ)
    (shuffled : List String) (screen_width screen_height : ℚ) : Game :=
  let player_radius : ℚ := 4
  let player_position : Point2 := ⟨screen_width / 2, screen_height - 30⟩
  let radius := screen_height / 1.7
  let center_x := screen_width / 2
  let center_y := screen_height / 2 - 30
  { player := Player.new player_position player_radius
    words := ringData.map (ringWord tr radius center_x center_y) ++
      shuffled.enum.map
        (vocabWord tr angles radii radius center_x center_y
          player_position)
    reset_typed := 0
    keys_pressed := [] }

/-- Legal single-update evolutions of a word's lifecycle state: stay
put, `Active → Typed`, or `Typed → Dead`. -/
def stepOK (s s2 : WordState) : Prop :=
  s2 = s ∨ (s = WordState.Active ∧ s2 = WordState.Typed) ∨
    (s = WordState.Typed ∧ s2 = WordState.Dead)

/-- Word data invariant: `num_typed` within bounds, and a word that has
left `Active` is fully typed. -/
abbrev WordInv (w : Word) : Prop :=
  w.num_typed ≤ w.word.length ∧
    (w.state ≠ WordState.Active → w.num_typed = w.word.length)

/-- What one pass of the word loop does to the word at a given index:
when the cooldown is active the word is reset; otherwise it is either
left untouched (after the break point) or is the result of its own
`Word::update`. -/
def RelWord (rt : Nat) (delta : ℚ) (key : Option KeyCode)
    (w w2 : Word) : Prop :=
  if 0 < rt then w2 = resetActive w
  else w2 = w ∨ w.update delta key = Except.ok w2

/-! Concrete states used to evaluate the theorems and to exhibit the
counterexamples.  `gEx` is a game holding the words "a" and "ab" at the
origin with zero velocity, in the shape `Game::new` produces
(`reset_typed = 0`, empty key snapshot). -/

/-- Origin point. -/
def pt0 : Point2 := ⟨0, 0⟩

/-- Zero velocity. -/
def vec0 : Vector2 := ⟨0, 0⟩

/-- Two-word example game. -/
def gEx : Game :=
  { player := Player.new pt0 4
    words := [Word.new "a" pt0 vec0, Word.new "ab" pt0 vec0]
    reset_typed := 0
    keys_pressed := [] }

/-- Frame 1: the key A is pressed; both words match their first
character. -/
def gEx1 : Except String Game := gEx.update [KeyCode.A] 1

/-- Frame 2: no keys held; the fully-typed word "a" flips to `Typed`,
which sets the reset cooldown and breaks the loop. -/
def gEx2 : Except String Game := gEx1.bind fun g => g.update [] 1

/-- Frame 3: the cooldown is active; the `Active` word "ab" has its
progress forced back to 0. -/
def gEx3 : Except String Game := gEx2.bind fun g => g.update [] 1

/-- Frame 4: the cooldown has expired; the freshly pressed A is matched
by "ab" again. -/
def gEx4 : Except String Game := gEx3.bind fun g => g.update [KeyCode.A] 1

/-- The word "a" after one update with the matching key delivered:
fully typed but still `Active`. -/
def waEx1 : Except String Word :=
  (Word.new "a" pt0 vec0).update 1 (some KeyCode.A)

/-- The fully-typed word "a" updated once more with a large time delta:
the update flips it to `Typed` without advancing the animation clock. -/
def waEx2 : Except String Word := waEx1.bind fun w => w.update 5 none

/-- Result of updating a fresh word "a" once with no key delivered. -/
def waAfter : Word :=
  { Word.new "a" pt0 vec0 with position := pt0 + vec0 }

/-- Result of updating a fresh word "ab" once with no key delivered. -/
def wabAfter : Word :=
  { Word.new "ab" pt0 vec0 with position := pt0 + vec0 }

/-- The word "a" with its single character already typed, still
`Active` (the state `waEx1` reaches). -/
def waFull : Word :=
  { Word.new "a" pt0 vec0 with num_typed := 1, position := pt0 + vec0 }

/-- `waFull` after one further update: flipped to `Typed`. -/
def waTyped : Word := { waFull with state := WordState.Typed }

/-- Trivial trigonometry oracle used to instantiate layout theorems. -/
def trigZero : TrigOracle := ⟨fun _ => 0, fun _ => 0⟩

/-- The state `Game.update` produces from `gEx` on a frame with no keys
held: both words advance by their (zero) velocity and nothing else
changes. -/
def gExAfter : Game :=
  { player := Player.new pt0 4
    words := [waAfter, wabAfter]
    reset_typed := 0
    keys_pressed := [] }

/-- The example game with an active reset cooldown of 1. -/
def gExCd : Game :=
  { player := Player.new pt0 4
    words := [Word.new "a" pt0 vec0, Word.new "ab" pt0 vec0]
    reset_typed := 1
    keys_pressed := [] }

/-! Helper lemmas about the word-update pipeline. -/

@[simp]
theorem Word.checkDead_word (w : Word) : w.checkDead.word = w.word := by
  unfold Word.checkDead; split <;> rfl

@[simp]
theorem Word.checkDead_num_typed (w : Word) :
    w.checkDead.num_typed = w.num_typed := by
  unfold Word.checkDead; split <;> rfl

@[simp]
theorem Word.checkDead_position (w : Word) :
    w.checkDead.position = w.position := by
  unfold Word.checkDead; split <;> rfl

@[simp]
theorem Word.checkDead_velocity (w : Word) :
    w.checkDead.velocity = w.velocity := by
  unfold Word.checkDead; split <;> rfl

@[simp]
theorem Word.checkDead_death_animation (w : Word) :
    w.checkDead.death_animation = w.death_animation := by
  unfold Word.checkDead; split <;> rfl

theorem Word.checkDead_state (w : Word) :
    w.checkDead.state =
      if w.state = WordState.Typed ∧ w.death_animation.finished then
        WordState.Dead
      else w.state := by
  unfold Word.checkDead; split <;> simp_all

@[simp]
theorem Word.tickAnimation_word (w : Word) (d : ℚ) :
    (w.tickAnimation d).word = w.word := by
  unfold Word.tickAnimation; split <;> rfl

@[simp]
theorem Word.tickAnimation_num_typed (w : Word) (d : ℚ) :
    (w.tickAnimation d).num_typed = w.num_typed := by
  unfold Word.tickAnimation; split <;> rfl

@[simp]
theorem Word.tickAnimation_position (w : Word) (d : ℚ) :
    (w.tickAnimation d).position = w.position := by
  unfold Word.tickAnimation; split <;> rfl

@[simp]
theorem Word.tickAnimation_velocity (w : Word) (d : ℚ) :
    (w.tickAnimation d).velocity = w.velocity := by
  unfold Word.tickAnimation; split <;> rfl

@[simp]
theorem Word.tickAnimation_state (w : Word) (d : ℚ) :
    (w.tickAnimation d).state = w.state := by
  unfold Word.tickAnimation; split <;> rfl

theorem Word.tickAnimation_death_animation (w : Word) (d : ℚ) :
    (w.tickAnimation d).death_animation =
      if w.state = WordState.Typed then w.death_animation.advanceBy d
      else w.death_animation := by
  unfold Word.tickAnimation; split <;> simp_all

theorem Word.processKey_word (w : Word) (k : Option KeyCode) (w2 : Word)
    (h : w.processKey k = Except.ok w2) : w2.word = w.word := by
  unfold Word.processKey at h
  rcases hg : w.word.get? w.num_typed with _ | next_ch <;>
    simp only [hg] at h
  · split at h <;> cases h <;> rfl
  · cases k with
    | none => cases h; rfl
    | some kp =>
      rcases hc : chToKeycode next_ch with _ | kc <;>
        simp only [hc] at h
      · exact Except.noConfusion h
      · split_ifs at h <;> cases h <;> rfl

theorem Word.processKey_num_typed (w : Word) (k : Option KeyCode)
    (w2 : Word) (h : w.processKey k = Except.ok w2) :
    w2.num_typed = w.num_typed ∨
      (w2.num_typed = w.num_typed + 1 ∧ w.num_typed < w.word.length) := by
  unfold Word.processKey at h
  rcases hg : w.word.get? w.num_typed with _ | next_ch <;>
    simp only [hg] at h
  · split at h <;> cases h <;> exact Or.inl rfl
  · have hlt : w.num_typed < w.word.length :=
      (List.get?_eq_some.mp hg).choose
    cases k with
    | none => cases h; exact Or.inl rfl
    | some kp =>
      rcases hc : chToKeycode next_ch with _ | kc <;>
        simp only [hc] at h
      · exact Except.noConfusion h
      · split_ifs at h <;> cases h
        · exact Or.inr ⟨rfl, hlt⟩
        · exact Or.inl rfl

theorem Word.processKey_position (w : Word) (k : Option KeyCode)
    (w2 : Word) (h : w.processKey k = Except.ok w2) :
    w2.position =
      if w.num_typed < w.word.length then w.position + w.velocity
      else w.position := by
  unfold Word.processKey at h
  rcases hg : w.word.get? w.num_typed with _ | next_ch <;>
    simp only [hg] at h
  · have hlen : w.word.length ≤ w.num_typed := List.get?_eq_none.mp hg
    rw [if_neg (Nat.not_lt.mpr hlen)]
    split at h <;> cases h <;> rfl
  · have hlt : w.num_typed < w.word.length :=
      (List.get?_eq_some.mp hg).choose
    rw [if_pos hlt]
    cases k with
    | none => cases h; rfl
    | some kp =>
      rcases hc : chToKeycode next_ch with _ | kc <;>
        simp only [hc] at h
      · exact Except.noConfusion h
      · split_ifs at h <;> cases h <;> rfl

theorem Word.processKey_state (w : Word) (k : Option KeyCode) (w2 : Word)
    (h : w.processKey k = Except.ok w2) :
    w2.state =
      if w.num_typed < w.word.length then w.state
      else if w.state = WordState.Active then WordState.Typed
      else w.state := by
  unfold Word.processKey at h
  rcases hg : w.word.get? w.num_typed with _ | next_ch <;>
    simp only [hg] at h
  · have hlen : w.word.length ≤ w.num_typed := List.get?_eq_none.mp hg
    rw [if_neg (Nat.not_lt.mpr hlen)]
    split at h <;> cases h <;> simp_all
  · have hlt : w.num_typed < w.word.length :=
      (List.get?_eq_some.mp hg).choose
    rw [if_pos hlt]
    cases k with
    | none => cases h; rfl
    | some kp =>
      rcases hc : chToKeycode next_ch with _ | kc <;>
        simp only [hc] at h
      · exact Except.noConfusion h
      · split_ifs at h <;> cases h <;> rfl

theorem Word.processKey_death_animation (w : Word) (k : Option KeyCode)
    (w2 : Word) (h : w.processKey k = Except.ok w2) :
    w2.death_animation = w.death_animation := by
  unfold Word.processKey at h
  rcases hg : w.word.get? w.num_typed with _ | next_ch <;>
    simp only [hg] at h
  · split at h <;> cases h <;> rfl
  · cases k with
    | none => cases h; rfl
    | some kp =>
      rcases hc : chToKeycode next_ch with _ | kc <;>
        simp only [hc] at h
      · exact Except.noConfusion h
      · split_ifs at h <;> cases h <;> rfl

theorem Word.processKey_error_iff (w : Word) (k : Option KeyCode) :
    (∃ e, w.processKey k = Except.error e) ↔
      (k.isSome ∧ ∃ ch, w.word.get? w.num_typed = some ch ∧
        chToKeycode ch = none) := by
  unfold Word.processKey
  rcases hg : w.word.get? w.num_typed with _ | next_ch <;>
    simp only [hg]
  · constructor
    · rintro ⟨e, he⟩
      split at he <;> exact Except.noConfusion he
    · rintro ⟨-, ch, hch, -⟩
      exact Option.noConfusion hch
  · cases k with
    | none => simp
    | some kp =>
      rcases hc : chToKeycode next_ch with _ | kc <;>
        simp only [hc]
      · constructor
        · intro
          exact ⟨rfl, next_ch, rfl, hc⟩
        · intro
          exact ⟨_, rfl⟩
      · constructor
        · rintro ⟨e, he⟩
          split_ifs at he
        · rintro ⟨-, ch, hch, hnone⟩
          cases hch
          exact Option.noConfusion (hc ▸ hnone)

/-! Lemmas about `Word.update`, obtained by composing the preamble
projections with the `processKey` lemmas. -/

theorem Word.update_word (w : Word) (d : ℚ) (k : Option KeyCode)
    (w2 : Word) (h : w.update d k = Except.ok w2) : w2.word = w.word := by
  unfold Word.update at h
  simpa using Word.processKey_word _ k w2 h

theorem Word.update_num_typed (w : Word) (d : ℚ) (k : Option KeyCode)
    (w2 : Word) (h : w.update d k = Except.ok w2) :
    w2.num_typed = w.num_typed ∨
      (w2.num_typed = w.num_typed + 1 ∧ w.num_typed < w.word.length) := by
  unfold Word.update at h
  simpa using Word.processKey_num_typed _ k w2 h

theorem Word.update_position (w : Word) (d : ℚ) (k : Option KeyCode)
    (w2 : Word) (h : w.update d k = Except.ok w2) :
    w2.position =
      if w.num_typed < w.word.length then w.position + w.velocity
      else w.position := by
  unfold Word.update at h
  simpa using Word.processKey_position _ k w2 h

theorem Word.update_state (w : Word) (d : ℚ) (k : Option KeyCode)
    (w2 : Word) (h : w.update d k = Except.ok w2) :
    w2.state =
      if w.num_typed < w.word.length then w.checkDead.state
      else if w.checkDead.state = WordState.Active then WordState.Typed
      else w.checkDead.state := by
  unfold Word.update at h
  simpa using Word.processKey_state _ k w2 h

theorem Word.update_death_animation (w : Word) (d : ℚ)
    (k : Option KeyCode) (w2 : Word) (h : w.update d k = Except.ok w2) :
    w2.death_animation =
      if w.state = WordState.Typed ∧ ¬w.death_animation.finished then
        w.death_animation.advanceBy d
      else w.death_animation := by
  unfold Word.update at h
  have hp := Word.processKey_death_animation _ k w2 h
  rw [Word.tickAnimation_death_animation, Word.checkDead_state,
    Word.checkDead_death_animation] at hp
  rw [hp]
  by_cases h1 : w.state = WordState.Typed ∧ w.death_animation.finished
  · rw [if_pos h1]
    simp [h1]
  · rw [if_neg h1]
    by_cases h2 : w.state = WordState.Typed
    · have hnf : ¬w.death_animation.finished = true := fun hf => h1 ⟨h2, hf⟩
      simp [h2, hnf]
    · simp [h2]

theorem Word.update_error_iff (w : Word) (d : ℚ) (k : Option KeyCode) :
    (∃ e, w.update d k = Except.error e) ↔
      (k.isSome ∧ ∃ ch, w.word.get? w.num_typed = some ch ∧
        chToKeycode ch = none) := by
  unfold Word.update
  simpa using Word.processKey_error_iff ((w.checkDead).tickAnimation d) k

theorem Word.update_total (w : Word) (d : ℚ) (k : Option KeyCode)
    (hmapped : ∀ ch ∈ w.word, (chToKeycode ch).isSome) :
    ∃ w2, w.update d k = Except.ok w2 := by
  rcases hu : w.update d k with e | w2
  · exfalso
    have := (Word.update_error_iff w d k).mp ⟨e, hu⟩
    obtain ⟨-, ch, hch, hnone⟩ := this
    have hmem : ch ∈ w.word := List.get?_mem hch
    have := hmapped ch hmem
    rw [hnone] at this
    exact Bool.noConfusion this
  · exact ⟨w2, rfl⟩

theorem Word.update_stepOK (w : Word) (d : ℚ) (k : Option KeyCode)
    (w2 : Word) (h : w.update d k = Except.ok w2) :
    stepOK w.state w2.state := by
  have hs := Word.update_state w d k w2 h
  rw [Word.checkDead_state] at hs
  unfold stepOK
  by_cases hf : w.death_animation.finished = true <;>
    rcases hw : w.state with _ | _ | _ <;>
      rw [hw] at hs <;> simp [hf] at hs <;>
        first
          | (split at hs <;> simp_all)
          | simp_all

theorem Word.update_active_typed_iff (w : Word) (d : ℚ)
    (k : Option KeyCode) (w2 : Word) (h : w.update d k = Except.ok w2)
    (ha : w.state = WordState.Active) :
    (w2.state = WordState.Typed ↔ w.word.length ≤ w.num_typed) := by
  have hs := Word.update_state w d k w2 h
  rw [Word.checkDead_state, ha] at hs
  simp only [show ¬(WordState.Active = WordState.Typed ∧
      w.death_animation.finished = true) from fun hc =>
      WordState.noConfusion hc.1, if_neg, if_pos, ite_true, ite_false,
    if_true, if_false] at hs
  constructor
  · intro ht
    rw [ht] at hs
    by_contra hlt
    rw [if_pos (Nat.not_le.mp hlt)] at hs
    exact WordState.noConfusion hs
  · intro hle
    rw [if_neg (Nat.not_lt.mpr hle)] at hs
    exact hs

theorem Word.update_inv (w : Word) (d : ℚ) (k : Option KeyCode)
    (w2 : Word) (h : w.update d k = Except.ok w2) (hw : WordInv w) :
    WordInv w2 := by
  obtain ⟨hle, hfull⟩ := hw
  have hword := Word.update_word w d k w2 h
  have hnum := Word.update_num_typed w d k w2 h
  have hs := Word.update_state w d k w2 h
  rw [Word.checkDead_state] at hs
  constructor
  · rw [hword]
    rcases hnum with h1 | ⟨h1, h2⟩
    · omega
    · omega
  · intro hna
    rw [hword]
    by_cases hlt : w.num_typed < w.word.length
    · rw [if_pos hlt] at hs
      split at hs
      · have : w.state = WordState.Typed := by tauto
        have := hfull (by rw [this]; simp)
        omega
      · have hWa : w.state ≠ WordState.Active := fun hA => by
          rw [hs, hA] at hna
          exact hna rfl
        have := hfull hWa
        omega
    · rcases hnum with h1 | ⟨-, h2⟩
      · omega
      · omega

theorem Word.update_frozen (w : Word) (d : ℚ) (k : Option KeyCode)
    (w2 : Word) (h : w.update d k = Except.ok w2) (hw : WordInv w)
    (hna : w.state ≠ WordState.Active) : w2.num_typed = w.num_typed := by
  have hnum := Word.update_num_typed w d k w2 h
  have hfull := hw.2 hna
  rcases hnum with h1 | ⟨-, h2⟩
  · exact h1
  · omega

theorem Word.update_mono (w : Word) (d : ℚ) (k : Option KeyCode)
    (w2 : Word) (h : w.update d k = Except.ok w2) :
    w.num_typed ≤ w2.num_typed := by
  rcases Word.update_num_typed w d k w2 h with h1 | ⟨h1, -⟩ <;> omega

/-! Lemmas about the word loop and `Game.update`. -/

theorem resetActive_state (w : Word) : (resetActive w).state = w.state := by
  unfold resetActive; split <;> rfl

theorem resetActive_word (w : Word) : (resetActive w).word = w.word := by
  unfold resetActive; split <;> rfl

theorem resetActive_num_typed (w : Word) :
    (resetActive w).num_typed =
      if w.state = WordState.Active then 0 else w.num_typed := by
  unfold resetActive; split <;> simp_all

theorem Game.updateWords_pos (rt : Nat) (d : ℚ) (key : Option KeyCode)
    (h : 0 < rt) (ws : List Word) :
    Game.updateWords rt d key ws = Except.ok (ws.map resetActive, rt) := by
  induction ws with
  | nil => simp [Game.updateWords]
  | cons w rest ih => simp [Game.updateWords, if_pos h, ih]

theorem Game.updateWords_spec (d : ℚ) (key : Option KeyCode) (rt : Nat)
    (ws : List Word) :
    ∀ ws2 rt2, Game.updateWords rt d key ws = Except.ok (ws2, rt2) →
      ws2.length = ws.length ∧
        ∀ i (hi : i < ws.length) (hi2 : i < ws2.length),
          RelWord rt d key (ws.get ⟨i, hi⟩) (ws2.get ⟨i, hi2⟩) := by
  induction ws with
  | nil =>
    intro ws2 rt2 h
    unfold Game.updateWords at h
    cases h
    exact ⟨rfl, fun i hi => absurd hi (Nat.not_lt_zero i)⟩
  | cons w rest ih =>
    intro ws2 rt2 h
    unfold Game.updateWords at h
    by_cases hrt : 0 < rt
    · rw [if_pos hrt, Game.updateWords_pos rt d key hrt rest] at h
      cases h
      refine ⟨by simp, fun i hi hi2 => ?_⟩
      cases i with
      | zero =>
        unfold RelWord
        rw [if_pos hrt]
        rfl
      | succ n =>
        have hn : n < rest.length := by
          simpa [Nat.succ_lt_succ_iff] using hi
        unfold RelWord
        rw [if_pos hrt]
        show (rest.map resetActive).get ⟨n, by simpa using hn⟩ =
          resetActive (rest.get ⟨n, hn⟩)
        simp
    · rw [if_neg hrt] at h
      rcases hu : w.update d key with e | wU <;> simp only [hu] at h
      · exact Except.noConfusion h
      · by_cases hbr : w.state = WordState.Active ∧ wU.state = WordState.Typed
        · rw [if_pos hbr] at h
          cases h
          refine ⟨by simp, fun i hi hi2 => ?_⟩
          cases i with
          | zero =>
            unfold RelWord
            rw [if_neg hrt]
            exact Or.inr hu
          | succ n =>
            unfold RelWord
            rw [if_neg hrt]
            exact Or.inl rfl
        · rw [if_neg hbr] at h
          rcases hrec : Game.updateWords rt d key rest with e | ⟨rest2, rtr⟩ <;>
            simp only [hrec] at h
          · exact Except.noConfusion h
          · cases h
            obtain ⟨hlen, hrel⟩ := ih _ _ hrec
            refine ⟨by simp [hlen], fun i hi hi2 => ?_⟩
            cases i with
            | zero =>
              unfold RelWord
              rw [if_neg hrt]
              exact Or.inr hu
            | succ n =>
              have hn : n < rest.length := by
                simpa [Nat.succ_lt_succ_iff] using hi
              have hn2 : n < rest2.length := by
                simpa [Nat.succ_lt_succ_iff] using hi2
              exact hrel n hn hn2

theorem Game.updateWords_break (d : ℚ) (key : Option KeyCode)
    (ws : List Word) :
    ∀ ws2 rt2, Game.updateWords 0 d key ws = Except.ok (ws2, rt2) →
      ∀ i (hi : i < ws.length) (hi2 : i < ws2.length),
        (ws.get ⟨i, hi⟩).state = WordState.Active →
        (ws2.get ⟨i, hi2⟩).state = WordState.Typed →
        rt2 = 2 ∧
          ∀ j (hj : j < ws.length) (hj2 : j < ws2.length), i < j →
            ws2.get ⟨j, hj2⟩ = ws.get ⟨j, hj⟩ := by
  induction ws with
  | nil =>
    intro ws2 rt2 h i hi
    exact absurd hi (Nat.not_lt_zero i)
  | cons w rest ih =>
    intro ws2 rt2 h i hi hi2 hA hT
    unfold Game.updateWords at h
    rw [if_neg (Nat.lt_irrefl 0)] at h
    rcases hu : w.update d key with e | wU <;> simp only [hu] at h
    · exact Except.noConfusion h
    · by_cases hbr : w.state = WordState.Active ∧ wU.state = WordState.Typed
      · rw [if_pos hbr] at h
        cases h
        cases i with
        | zero =>
          refine ⟨rfl, fun j hj hj2 hij => ?_⟩
          cases j with
          | zero => exact absurd hij (Nat.lt_irrefl 0)
          | succ m => rfl
        | succ n =>
          exact absurd (hA ▸ hT) (by simp)
      · rw [if_neg hbr] at h
        rcases hrec : Game.updateWords 0 d key rest with e | ⟨rest2, rtr⟩ <;>
          simp only [hrec] at h
        · exact Except.noConfusion h
        · cases h
          cases i with
          | zero => exact absurd ⟨hA, hT⟩ hbr
          | succ n =>
            have hn : n < rest.length := by
              simpa [Nat.succ_lt_succ_iff] using hi
            have hn2 : n < rest2.length := by
              simpa [Nat.succ_lt_succ_iff] using hi2
            obtain ⟨hrt, hsuf⟩ := ih _ _ hrec n hn hn2 hA hT
            refine ⟨hrt, fun j hj hj2 hij => ?_⟩
            cases j with
            | zero => exact absurd hij (Nat.not_lt_zero _)
            | succ m =>
              have hm : m < rest.length := by
                simpa [Nat.succ_lt_succ_iff] using hj
              have hm2 : m < rest2.length := by
                simpa [Nat.succ_lt_succ_iff] using hj2
              exact hsuf m hm hm2 (Nat.lt_of_succ_lt_succ hij)

theorem Game.update_parts (g : Game) (pressed : List KeyCode) (d : ℚ)
    (g2 : Game) (h : g.update pressed d = Except.ok g2) :
    ∃ rt2, Game.updateWords g.reset_typed d
        (newKeypress g.keys_pressed pressed) g.words =
        Except.ok (g2.words, rt2) ∧
      g2.reset_typed = rt2 - 1 ∧ g2.keys_pressed = pressed ∧
      g2.player = g.player := by
  simp only [Game.update] at h
  rcases hw : Game.updateWords g.reset_typed d
      (newKeypress g.keys_pressed pressed) g.words with e | ⟨ws2, rt2⟩ <;>
    simp only [hw] at h
  · exact Except.noConfusion h
  · cases h
    exact ⟨rt2, rfl, rfl, rfl, rfl⟩

theorem newKeypress_eq_find (prev cur : List KeyCode) :
    newKeypress prev cur = cur.find? fun k => !(prev.contains k) := by
  induction cur with
  | nil => rfl
  | cons k rest ih =>
    by_cases hk : k ∈ prev
    · simp [newKeypress, List.find?, hk, ih]
    · simp [newKeypress, List.find?, hk, ih]

/-! Claim theorems. -/

/-- C1 counterexample: the claim "typed_count is non-decreasing while
the word is in state Active" is false for `Game::update`.  Starting
from `gEx` (words "a" and "ab", no cooldown) and pressing A then
nothing twice: after the second update the word "ab" is `Active` with
`typed_count = 1`; the third update runs during the reset cooldown and
forces it back to 0 — a decrease while `Active`. -/
theorem C1_counterexample :
    (gEx2.toOption.map fun g => g.words.map fun w => (w.num_typed, w.state)) =
      some [(1, WordState.Typed), (1, WordState.Active)] ∧
    (gEx3.toOption.map fun g => g.words.map fun w => (w.num_typed, w.state)) =
      some [(1, WordState.Typed), (0, WordState.Active)] ∧
    (0 : Nat) < 1 := by
  refine ⟨?_, ?_, ?_⟩ <;> decide

/-- C1 (amended): after every `Game::update` from words satisfying the
data invariant, every word satisfies `0 ≤ typed_count ≤ length`
(`WordInv`); `typed_count` is frozen while `Typed`/`Dead`; while
`Active` it is non-decreasing when no reset cooldown is active, and is
forced to 0 by an active reset cooldown. -/
theorem C1_typed_count_invariants (g : Game) (pressed : List KeyCode)
    (d : ℚ) (g2 : Game) (hinv : ∀ w ∈ g.words, WordInv w)
    (h : g.update pressed d = Except.ok g2) :
    g2.words.length = g.words.length ∧
      ∀ i (hi : i < g.words.length) (hi2 : i < g2.words.length),
        WordInv (g2.words.get ⟨i, hi2⟩) ∧
        ((g.words.get ⟨i, hi⟩).state ≠ WordState.Active →
          (g2.words.get ⟨i, hi2⟩).num_typed =
            (g.words.get ⟨i, hi⟩).num_typed) ∧
        ((g.words.get ⟨i, hi⟩).state = WordState.Active →
          (0 < g.reset_typed → (g2.words.get ⟨i, hi2⟩).num_typed = 0) ∧
          (g.reset_typed = 0 →
            (g.words.get ⟨i, hi⟩).num_typed ≤
              (g2.words.get ⟨i, hi2⟩).num_typed)) := by
  obtain ⟨rt2, hwords, hrt, -, -⟩ := Game.update_parts g pressed d g2 h
  obtain ⟨hlen, hrel⟩ :=
    Game.updateWords_spec d _ g.reset_typed g.words g2.words rt2 hwords
  refine ⟨hlen, fun i hi hi2 => ?_⟩
  have hr := hrel i hi hi2
  unfold RelWord at hr
  have hwinv := hinv _ (List.get_mem g.words i hi)
  by_cases hrt0 : 0 < g.reset_typed
  · rw [if_pos hrt0] at hr
    rw [hr]
    refine ⟨?_, ?_, ?_⟩
    · unfold resetActive
      split
    -- the two cases of resetActive
      · exact ⟨Nat.zero_le _, fun hna => absurd ‹_› hna⟩
      · exact hwinv
    · intro hna
      rw [resetActive_num_typed, if_neg hna]
    · intro hA
      refine ⟨fun _ => ?_, fun h0 => absurd hrt0 (by omega)⟩
      rw [resetActive_num_typed, if_pos hA]
  · rw [if_neg hrt0] at hr
    rcases hr with hr | hr
    · rw [hr]
      exact ⟨hwinv, fun _ => rfl,
        fun hA => ⟨fun hc => absurd hc hrt0, fun _ => Nat.le_refl _⟩⟩
    · exact ⟨Word.update_inv _ _ _ _ hr hwinv,
        fun hna => Word.update_frozen _ _ _ _ hr hwinv hna,
        fun hA => ⟨fun hc => absurd hc hrt0,
          fun _ => Word.update_mono _ _ _ _ hr⟩⟩

set_option maxRecDepth 8000 in
/-- Witness for C1: the amended theorem applied to the concrete game
`gEx` on a key-free frame. -/
theorem C1_typed_count_invariants_witness :
    ((∀ w ∈ gEx.words, WordInv w) ∧ gEx.update [] 1 = Except.ok gExAfter) ∧
      gExAfter.words.length = gEx.words.length :=
  ⟨⟨by decide, by decide⟩,
    (C1_typed_count_invariants gEx [] 1 gExAfter (by decide) (by decide)).1⟩

/-- C2 counterexample: the forced reset does not hold for "exactly 2
subsequent updates".  In the `gEx` trace the word "a" completes during
update 2 (cooldown is set to 2, then decremented to 1 the same frame);
update 3 forces "ab" back to 0 and drops the cooldown to 0; update 4 —
only the second update after the transition — already accepts typing
again ("ab" progresses from 0 to 1 on the freshly pressed A). -/
theorem C2_counterexample :
    (gEx2.toOption.map fun g =>
      (g.reset_typed, g.words.map Word.num_typed)) = some (1, [1, 1]) ∧
    (gEx3.toOption.map fun g =>
      (g.reset_typed, g.words.map Word.num_typed)) = some (0, [1, 0]) ∧
    (gEx4.toOption.map fun g =>
      (g.reset_typed, g.words.map Word.num_typed)) = some (0, [1, 1]) := by
  refine ⟨?_, ?_, ?_⟩ <;> decide

/-- C2 (amended): when a word transitions `Active → Typed` during a
`Game::update`, the cooldown is set to 2 and the remaining words of
that frame are left untouched; the counter is decremented at the end of
the same update, so the game ends that frame with `reset_typed = 1`.
While the cooldown is active, an update forces every `Active` word's
`typed_count` to 0, runs no per-word update, and decrements the
counter; hence the forced reset holds for exactly 1 subsequent update
before typing is accepted again. -/
theorem C2_reset_cooldown :
    (∀ (g : Game) (pressed : List KeyCode) (d : ℚ), 0 < g.reset_typed →
      g.update pressed d = Except.ok { g with
        words := g.words.map resetActive,
        reset_typed := g.reset_typed - 1,
        keys_pressed := pressed }) ∧
    (∀ (g : Game) (pressed : List KeyCode) (d : ℚ) (g2 : Game),
      g.reset_typed = 0 → g.update pressed d = Except.ok g2 →
      ∀ i (hi : i < g.words.length) (hi2 : i < g2.words.length),
        (g.words.get ⟨i, hi⟩).state = WordState.Active →
        (g2.words.get ⟨i, hi2⟩).state = WordState.Typed →
        g2.reset_typed = 1 ∧
          ∀ j (hj : j < g.words.length) (hj2 : j < g2.words.length),
            i < j → g2.words.get ⟨j, hj2⟩ = g.words.get ⟨j, hj⟩) := by
  constructor
  · intro g pressed d h0
    simp [Game.update, Game.updateWords_pos _ _ _ h0]
  · intro g pressed d g2 hz h i hi hi2 hA hT
    obtain ⟨rt2, hwords, hrtg, -, -⟩ := Game.update_parts g pressed d g2 h
    rw [hz] at hwords
    obtain ⟨hbrk, hsuf⟩ :=
      Game.updateWords_break d _ g.words g2.words rt2 hwords i hi hi2 hA hT
    exact ⟨by rw [hrtg, hbrk], hsuf⟩

set_option maxRecDepth 8000 in
/-- Witness for C2: the cooldown branch evaluated on the concrete game
`gExCd` (cooldown 1). -/
theorem C2_reset_cooldown_witness :
    0 < gExCd.reset_typed ∧
      gExCd.update [] 1 = Except.ok { gExCd with
        words := gExCd.words.map resetActive,
        reset_typed := gExCd.reset_typed - 1,
        keys_pressed := [] } :=
  ⟨by decide, C2_reset_cooldown.1 gExCd [] 1 (by decide)⟩

/-- C3 counterexample: the `Active → Typed` transition does not fire on
the update in which the last character is matched.  Updating the fresh
word "a" with the freshly pressed key A matches its last (only)
character, reaching `typed_count = 1 = length`, yet the state after
that same update is still `Active`, not `Typed`. -/
theorem C3_counterexample :
    (waEx1.toOption.map fun w => (w.num_typed, w.state)) =
      some (1, WordState.Active) ∧
    ("a".toList).length = 1 ∧ WordState.Active ≠ WordState.Typed := by
  refine ⟨?_, ?_, ?_⟩ <;> decide

/-- C3 (amended): for an `Active` word, one `Word::update` ends in
state `Typed` exactly when `typed_count` already equals the word length
at entry — i.e. the transition fires on the first update after the one
that matched the last character, because the word-exhausted check
precedes any character match within the same update. -/
theorem C3_typed_transition_timing (w : Word) (d : ℚ) (k : Option KeyCode)
    (w2 : Word) (h : w.update d k = Except.ok w2)
    (ha : w.state = WordState.Active) :
    (w2.state = WordState.Typed ↔ w.word.length ≤ w.num_typed) :=
  Word.update_active_typed_iff w d k w2 h ha

/-- Witness for C3: the fully-typed but still `Active` word `waFull`
flips to `Typed` on its next update. -/
theorem C3_typed_transition_timing_witness :
    (waFull.update 1 none = Except.ok waTyped ∧
      waFull.state = WordState.Active) ∧
    (waTyped.state = WordState.Typed ↔ waFull.word.length ≤ waFull.num_typed) :=
  ⟨⟨by decide, rfl⟩, C3_typed_transition_timing waFull 1 none waTyped (by decide) rfl⟩

/-- C4: the per-frame edge detector returns the first key of the
current held-key snapshot that is absent from the previous frame's
snapshot (`List.find?` of non-membership), returns nothing when every
held key was already held, behaves on the snapshot sequence
`{}, {A}, {A}, {A,B}` as `none, A, none, B` (in either iteration order
of `{A,B}`), and every successful `Game::update` stores the current
snapshot as the new previous snapshot. -/
theorem C4_edge_detection :
    (∀ prev cur, newKeypress prev cur =
      cur.find? fun k => !(prev.contains k)) ∧
    (∀ prev cur : List KeyCode, (∀ k ∈ cur, k ∈ prev) →
      newKeypress prev cur = none) ∧
    (newKeypress [] [] = none ∧
     newKeypress [] [KeyCode.A] = some KeyCode.A ∧
     newKeypress [KeyCode.A] [KeyCode.A] = none ∧
     newKeypress [KeyCode.A] [KeyCode.A, KeyCode.B] = some KeyCode.B ∧
     newKeypress [KeyCode.A] [KeyCode.B, KeyCode.A] = some KeyCode.B) ∧
    (∀ (g : Game) (pressed : List KeyCode) (d : ℚ) (g2 : Game),
      g.update pressed d = Except.ok g2 → g2.keys_pressed = pressed) := by
  refine ⟨newKeypress_eq_find, ?_, by decide, ?_⟩
  · intro prev cur hall
    rw [newKeypress_eq_find, List.find?_eq_none]
    intro x hx
    simp [hall x hx]
  · intro g pressed d g2 h
    obtain ⟨-, -, -, hk, -⟩ := Game.update_parts g pressed d g2 h
    exact hk

/-- Witness for C4: the no-new-key case applied to the concrete held
set `{A}` repeated across two frames. -/
theorem C4_edge_detection_witness :
    (∀ k ∈ [KeyCode.A], k ∈ [KeyCode.A]) ∧
      newKeypress [KeyCode.A] [KeyCode.A] = none :=
  ⟨by decide, C4_edge_detection.2.1 [KeyCode.A] [KeyCode.A] (by decide)⟩

/-- C5: word lifecycle states only ever move forward through
`Active, Typed, Dead`: a single `Word::update` either keeps the state,
moves `Active → Typed`, or moves `Typed → Dead` (never backward and
never skipping a state), and the same holds for every word across a
`Game::update`. -/
theorem C5_state_monotonic :
    (∀ (w : Word) (d : ℚ) (k : Option KeyCode) (w2 : Word),
      w.update d k = Except.ok w2 → stepOK w.state w2.state) ∧
    (∀ (g : Game) (pressed : List KeyCode) (d : ℚ) (g2 : Game),
      g.update pressed d = Except.ok g2 →
      ∀ i (hi : i < g.words.length) (hi2 : i < g2.words.length),
        stepOK (g.words.get ⟨i, hi⟩).state (g2.words.get ⟨i, hi2⟩).state) := by
  refine ⟨Word.update_stepOK, ?_⟩
  intro g pressed d g2 h i hi hi2
  obtain ⟨rt2, hwords, -, -, -⟩ := Game.update_parts g pressed d g2 h
  have hr := (Game.updateWords_spec d _ g.reset_typed g.words g2.words rt2
    hwords).2 i hi hi2
  unfold RelWord at hr
  by_cases hrt0 : 0 < g.reset_typed
  · rw [if_pos hrt0] at hr
    rw [hr, resetActive_state]
    exact Or.inl rfl
  · rw [if_neg hrt0] at hr
    rcases hr with hr | hr
    · rw [hr]
      exact Or.inl rfl
    · exact Word.update_stepOK _ _ _ _ hr

/-- Witness for C5: a fresh word "a" updated once with no key keeps its
`Active` state, a legal step. -/
theorem C5_state_monotonic_witness :
    ((Word.new "a" pt0 vec0).update 1 none = Except.ok waAfter) ∧
      stepOK (Word.new "a" pt0 vec0).state waAfter.state :=
  ⟨by decide, C5_state_monotonic.1 (Word.new "a" pt0 vec0) 1 none waAfter (by decide)⟩

/-- C6 counterexample: "once the word is fully typed (typed_count =
length) ... the death-animation clock advances by the frame's time
delta each update" is false for the update that performs the
`Active → Typed` flip.  `waEx1` is the word "a" fully typed
(`typed_count = 1 = length`) and still `Active` with clock 0; updating
it with delta 5 flips it to `Typed` but leaves the clock at 0, not
`0 + 5`. -/
theorem C6_counterexample :
    (waEx1.toOption.map fun w =>
      (w.num_typed, w.word.length, w.state, w.death_animation.time)) =
      some (1, 1, WordState.Active, 0) ∧
    (waEx2.toOption.map fun w => (w.state, w.death_animation.time)) =
      some (WordState.Typed, 0) ∧
    (0 : ℚ) ≠ 0 + 5 := by
  refine ⟨?_, ?_, ?_⟩ <;> decide

/-- C6 (amended): on every `Word::update` with an untyped character
remaining at entry the position advances by exactly the velocity
(whether or not the key matched); once `typed_count = length`, position
and `typed_count` are never changed by `Word::update` again; and the
death-animation clock advances by the frame's delta exactly on the
updates whose entry state is `Typed` with the animation unfinished — in
particular the flip update (fully typed but still `Active` at entry)
does not advance the clock. -/
theorem C6_motion_and_clock (w : Word) (d : ℚ) (k : Option KeyCode)
    (w2 : Word) (h : w.update d k = Except.ok w2) :
    (w.num_typed < w.word.length →
      w2.position = w.position + w.velocity) ∧
    (w.word.length ≤ w.num_typed →
      w2.position = w.position ∧ w2.num_typed = w.num_typed) ∧
    w2.death_animation.time =
      (if w.state = WordState.Typed ∧ ¬w.death_animation.finished
        then w.death_animation.time + d else w.death_animation.time) := by
  refine ⟨?_, ?_, ?_⟩
  · intro hlt
    rw [Word.update_position w d k w2 h, if_pos hlt]
  · intro hle
    refine ⟨?_, ?_⟩
    · rw [Word.update_position w d k w2 h, if_neg (Nat.not_lt.mpr hle)]
    · rcases Word.update_num_typed w d k w2 h with h1 | ⟨-, h2⟩
      · exact h1
      · omega
  · rw [Word.update_death_animation w d k w2 h]
    by_cases hc : w.state = WordState.Typed ∧ ¬w.death_animation.finished
    · rw [if_pos hc, if_pos hc]
      rfl
    · rw [if_neg hc, if_neg hc]

/-- Witness for C6: the first conjunct evaluated on a fresh word "ab"
updated with no key: the position advances by the velocity. -/
theorem C6_motion_and_clock_witness :
    ((Word.new "ab" pt0 vec0).update 1 none = Except.ok wabAfter ∧
      (Word.new "ab" pt0 vec0).num_typed <
        (Word.new "ab" pt0 vec0).word.length) ∧
    wabAfter.position =
      (Word.new "ab" pt0 vec0).position + (Word.new "ab" pt0 vec0).velocity :=
  ⟨⟨by decide, by decide⟩,
    (C6_motion_and_clock _ 1 none wabAfter (by decide)).1 (by decide)⟩

theorem enum_map_word (l : List String) (F : Nat × String → Word)
    (hF : ∀ p, (F p).word = p.2.toList) :
    (l.enum.map F).map Word.word = l.map String.toList := by
  rw [List.map_map]
  have h2 : (Word.word ∘ F) = (String.toList ∘ Prod.snd) :=
    funext fun p => hF p
  rw [h2, ← List.map_map, List.enum_map_snd]

/-- C7: for every screen size (and every random draw and trig value),
`Game::new` produces exactly 13 + 171 = 184 words; the first 13 are the
decorative ring labels "0", "15", ..., "180" with zero velocity and the
muted `Bg2` color, at the angles 0, 15, ..., 180; the remaining 171
words' texts are exactly the shuffled vocabulary, a permutation of the
fixed `WORD_LIST`. -/
theorem C7_layout (tr : TrigOracle) (angles radii : Nat → ℚ)
    (shuffled : List String) (sw sh : ℚ)
    (hperm : shuffled.Perm WORD_LIST) :
    (Game.new tr angles radii shuffled sw sh).words.length = 13 + 171 ∧
    ((Game.new tr angles radii shuffled sw sh).words.take 13).map
        (fun w => (w.word, w.velocity, w.color)) =
      ringData.map (fun la =>
        (la.1.toList, (⟨0, 0⟩ : Vector2), ColorPalette.Bg2)) ∧
    ringData.map Prod.snd =
      [0, 15, 30, 45, 60, 75, 90, 105, 120, 135, 150, 165, 180] ∧
    (((Game.new tr angles radii shuffled sw sh).words.drop 13).map
        Word.word).Perm (WORD_LIST.map String.toList) := by
  have hwords : (Game.new tr angles radii shuffled sw sh).words =
      ringData.map (ringWord tr (sh / 1.7) (sw / 2) (sh / 2 - 30)) ++
      shuffled.enum.map (vocabWord tr angles radii (sh / 1.7) (sw / 2)
        (sh / 2 - 30) ⟨sw / 2, sh - 30⟩) := rfl
  have h13 : (ringData.map
      (ringWord tr (sh / 1.7) (sw / 2) (sh / 2 - 30))).length = 13 := by
    rw [List.length_map]
    rfl
  refine ⟨?_, ?_, by decide, ?_⟩
  · rw [hwords, List.length_append, List.length_map, List.length_map,
      List.enum_length, hperm.length_eq]
    decide
  · rw [hwords, List.take_left' h13, List.map_map]
    rfl
  · rw [hwords, List.drop_left' h13,
      enum_map_word shuffled _ (fun p => rfl)]
    exact hperm.map _

/-- Witness for C7: the layout theorem applied to the identity
permutation of `WORD_LIST` with the trivial trig oracle. -/
theorem C7_layout_witness :
    WORD_LIST.Perm WORD_LIST ∧
      (Game.new trigZero (fun _ => 0) (fun _ => 0)
        WORD_LIST 0 0).words.length = 13 + 171 :=
  ⟨List.Perm.refl _,
    (C7_layout trigZero (fun _ => 0) (fun _ => 0) WORD_LIST 0 0
      (List.Perm.refl _)).1⟩

/-- C8 counterexample: "every newly constructed Word" does not get a
bright-yellow first stop — the variant constructor in src/word.rs
inserts `ColorPalette::Red` as the first keyframe. -/
theorem C8_counterexample :
    (WordRs.new "cat" pt0 vec0).death_animation.keyframes.map
        Keyframe.color ≠
      [ColorPalette.BrightYellow, ColorPalette.Fg0, ColorPalette.Blue,
        ColorPalette.Bg] ∧
    (WordRs.new "cat" pt0 vec0).death_animation.keyframes.map
        Keyframe.color =
      [ColorPalette.Red, ColorPalette.Fg0, ColorPalette.Blue,
        ColorPalette.Bg] := by
  refine ⟨?_, ?_⟩ <;> decide

/-- C8 (amended): every word constructed by the game's `Word::new`
(src/game.rs, identically src/main.rs) owns a death animation of
exactly 4 keyframes — bright-yellow, near-white (`Fg0`), blue,
background — at time offsets 0, 0.05, 0.45, 1.0 of total duration 1.0,
the first two with linear easing and the last two with ease-in-out;
the variant constructor in src/word.rs produces the identical timeline
except that its first stop is `Red` instead of bright-yellow. -/
theorem C8_death_animation :
    (∀ (word : String) (pos : Point2) (vel : Vector2),
      (Word.new word pos vel).death_animation = gameDeathAnimation) ∧
    ((gameDeathAnimation.keyframes.map
        fun kf => (kf.color, kf.time, kf.easing)) =
      [(ColorPalette.BrightYellow, 0, Easing.Linear),
       (ColorPalette.Fg0, 0.05, Easing.Linear),
       (ColorPalette.Blue, 0.45, Easing.EaseInOut),
       (ColorPalette.Bg, 1, Easing.EaseInOut)] ∧
      gameDeathAnimation.duration = 1 ∧ gameDeathAnimation.time = 0) ∧
    (∀ (word : String) (pos : Point2) (vel : Vector2),
      (WordRs.new word pos vel).death_animation = wordRsDeathAnimation) ∧
    ((wordRsDeathAnimation.keyframes.map
        fun kf => (kf.color, kf.time, kf.easing)) =
      [(ColorPalette.Red, 0, Easing.Linear),
       (ColorPalette.Fg0, 0.05, Easing.Linear),
       (ColorPalette.Blue, 0.45, Easing.EaseInOut),
       (ColorPalette.Bg, 1, Easing.EaseInOut)]) :=
  ⟨fun _ _ _ => rfl, ⟨by decide, by decide, by decide⟩,
    fun _ _ _ => rfl, by decide⟩

theorem chToKeycode_lower (n : Nat) (h1 : 97 ≤ n) (h2 : n ≤ 122) :
    (chToKeycode (Char.ofNat n)).isSome = true := by
  interval_cases n <;> decide

theorem chToKeycode_digit (n : Nat) (h1 : 48 ≤ n) (h2 : n ≤ 57) :
    (chToKeycode (Char.ofNat n)).isSome = true := by
  interval_cases n <;> decide

theorem chToKeycode_isSome_iff (c : Char) :
    (chToKeycode c).isSome = true ↔
      (97 ≤ c.toNat ∧ c.toNat ≤ 122) ∨
        (48 ≤ c.toNat ∧ c.toNat ≤ 57) := by
  constructor
  · intro h
    unfold chToKeycode at h
    split at h <;> first | decide | exact absurd h (by decide)
  · intro h
    rcases h with ⟨h1, h2⟩ | ⟨h1, h2⟩
    · have h3 := chToKeycode_lower c.toNat h1 h2
      rwa [Char.ofNat_toNat] at h3
    · have h3 := chToKeycode_digit c.toNat h1 h2
      rwa [Char.ofNat_toNat] at h3

/-- C9: exactly the lowercase letters a-z (code points 97-122) and the
digits 0-9 (code points 48-57) have key-code mappings; a `Word::update`
returns the fatal unmapped-character error exactly when the next
untyped character exists, has no mapping, and a freshly-pressed key is
delivered; and a word all of whose characters are mapped never makes
`Word::update` return an error. -/
theorem C9_unmapped_character :
    (∀ c : Char, (chToKeycode c).isSome = true ↔
      (97 ≤ c.toNat ∧ c.toNat ≤ 122) ∨ (48 ≤ c.toNat ∧ c.toNat ≤ 57)) ∧
    ('a'.toNat = 97 ∧ 'z'.toNat = 122 ∧ '0'.toNat = 48 ∧ '9'.toNat = 57) ∧
    (∀ (w : Word) (d : ℚ) (k : Option KeyCode),
      (∃ e, w.update d k = Except.error e) ↔
        (k.isSome = true ∧ ∃ ch, w.word.get? w.num_typed = some ch ∧
          chToKeycode ch = none)) ∧
    (∀ (w : Word) (d : ℚ) (k : Option KeyCode),
      (∀ ch ∈ w.word, (chToKeycode ch).isSome = true) →
      ∃ w2, w.update d k = Except.ok w2) :=
  ⟨chToKeycode_isSome_iff, by decide,
    fun w d k => Word.update_error_iff w d k,
    fun w d k hm => Word.update_total w d k hm⟩

/-- Witness for C9: the all-mapped word "cat" updates without error,
and the unmapped character of the word "&" raises the error exactly
when a key is delivered. -/
theorem C9_unmapped_character_witness :
    ((∀ ch ∈ (Word.new "cat" pt0 vec0).word,
        (chToKeycode ch).isSome = true) ∧
      ∃ w2, (Word.new "cat" pt0 vec0).update 1 (some KeyCode.C) =
        Except.ok w2) ∧
    ((some KeyCode.A).isSome = true ∧
      ∃ ch, (Word.new "&" pt0 vec0).word.get?
          (Word.new "&" pt0 vec0).num_typed = some ch ∧
        chToKeycode ch = none) ∧
    (∃ e, (Word.new "&" pt0 vec0).update 1 (some KeyCode.A) =
      Except.error e) :=
  ⟨⟨by decide,
      C9_unmapped_character.2.2.2 (Word.new "cat" pt0 vec0) 1
        (some KeyCode.C) (by decide)⟩,
    ⟨by decide, ⟨Char.ofNat 38, by decide, by decide⟩⟩,
    (C9_unmapped_character.2.2.1 (Word.new "&" pt0 vec0) 1
        (some KeyCode.A)).mpr
      ⟨by decide, ⟨Char.ofNat 38, by decide, by decide⟩⟩⟩

/-- C10: the 171-entry vocabulary contains "net" twice, hence only 170
distinct words; consequently every layout `Game::new` produces (for any
shuffle permutation) contains exactly two word entities whose text is
"net". -/
theorem C10_duplicate_net :
    WORD_LIST.length = 171 ∧
    WORD_LIST.count "net" = 2 ∧
    WORD_LIST.dedup.length = 170 ∧
    (∀ (tr : TrigOracle) (angles radii : Nat → ℚ)
      (shuffled : List String) (sw sh : ℚ), shuffled.Perm WORD_LIST →
      ((Game.new tr angles radii shuffled sw sh).words.countP
        (fun w => w.word == "net".toList)) = 2) := by
  refine ⟨by decide, by decide, by decide, ?_⟩
  intro tr angles radii shuffled sw sh hperm
  have hwords : (Game.new tr angles radii shuffled sw sh).words =
      ringData.map (ringWord tr (sh / 1.7) (sw / 2) (sh / 2 - 30)) ++
      shuffled.enum.map (vocabWord tr angles radii (sh / 1.7) (sw / 2)
        (sh / 2 - 30) ⟨sw / 2, sh - 30⟩) := rfl
  rw [hwords, List.countP_append, List.countP_map, List.countP_map]
  have hr2 : ((fun w => w.word == "net".toList) ∘
      ringWord tr (sh / 1.7) (sw / 2) (sh / 2 - 30)) =
      (fun la : String × ℚ => la.1.toList == "net".toList) :=
    funext fun la => rfl
  have h2 : ((fun w => w.word == "net".toList) ∘
      vocabWord tr angles radii (sh / 1.7) (sw / 2) (sh / 2 - 30)
        ⟨sw / 2, sh - 30⟩) =
      ((fun s => s.toList == "net".toList) ∘ Prod.snd) :=
    funext fun iw => rfl
  have h3 : List.countP
      ((fun s => s.toList == "net".toList) ∘ Prod.snd) shuffled.enum =
      List.countP (fun s => s.toList == "net".toList) shuffled := by
    rw [← List.countP_map, List.enum_map_snd]
  rw [hr2, h2, h3, List.Perm.countP_eq _ hperm]
  decide

/-- Witness for C10: the layout conjunct applied to the identity
permutation with the trivial oracle. -/
theorem C10_duplicate_net_witness :
    WORD_LIST.Perm WORD_LIST ∧
      ((Game.new trigZero (fun _ => 0) (fun _ => 0)
        WORD_LIST 0 0).words.countP
          (fun w => w.word == "net".toList)) = 2 :=
  ⟨List.Perm.refl _,
    C10_duplicate_net.2.2.2 trigZero (fun _ => 0) (fun _ => 0)
      WORD_LIST 0 0 (List.Perm.refl _)⟩

end AnimatedMemory
